import Mathlib

/-!
# Verification of the CS5340 Monte-Carlo sampling notebook

This file shallowly embeds the executable cells of
`src/L9/Markov+Chain+Monte-Carlo.ipynb` and proves properties of the
embedded definitions.

Modelling conventions:

* Finite IEEE doubles are modelled as exact rationals (`ℚ`); no rounding or
  overflow is modelled for the ordinary arithmetic the notebook performs.
  The special values NaN, `+inf` and `-inf`, which the notebook explicitly
  manipulates through `np.nan_to_num` and through divisions by zero, are
  modelled by the inductive type `FP` below together with IEEE-style
  arithmetic on it.
* The process-wide NumPy random generator is replaced by explicit input
  streams: `us : ℕ → ℚ` gives the value of the `k`-th call of
  `np.random.uniform(0,1)` and `qsample : ℕ → ℚ → ℚ` gives the proposal
  drawn at global step `k` from the current state.  Random draws consumed
  by the vectorized demos are passed as explicit lists.
* Library density/sampling objects (`stats.norm`, `qpdf.pdf`, …) are opaque
  dependencies of the notebook and are modelled as function parameters, as
  are the library float power `**` and `np.exp` inside `GammaUnnorm`
  (parameters `pw`, `rexp` below, returning `FP` so that the NaN produced
  by a negative base with fractional exponent, and overflow to `inf`, are
  representable).
-/

/-- IEEE-style extended float value: NaN, the two infinities, or a finite
value modelled as an exact rational. -/
inductive FP where
  | nan : FP
  | inf : FP
  | neginf : FP
  | fin : ℚ → FP
deriving DecidableEq

/-- The largest finite IEEE double, `(2 - 2⁻⁵²)·2¹⁰²³ = 2¹⁰²⁴ - 2⁹⁷¹`.
This is the value `np.nan_to_num` substitutes for `+inf`. -/
def npFloatMax : ℚ := ((2 ^ 1024 - 2 ^ 971 : ℕ) : ℚ)

/-- `np.nan_to_num`: NaN becomes `0`, `±inf` becomes `±npFloatMax`, finite
values are unchanged. -/
def nan_to_num : FP → ℚ
  | .nan => 0
  | .inf => npFloatMax
  | .neginf => -npFloatMax
  | .fin q => q

/-- IEEE division of two finite doubles: `0/0` is NaN, `a/0` for `a ≠ 0` is
a signed infinity, and otherwise the quotient is exact. -/
def npDiv (a b : ℚ) : FP :=
  if b = 0 then (if a = 0 then .nan else if 0 < a then .inf else .neginf)
  else .fin (a / b)

/-- IEEE multiplication on extended float values (`inf * 0` is NaN). -/
def fpMul : FP → FP → FP
  | .nan, _ => .nan
  | _, .nan => .nan
  | .inf, .inf => .inf
  | .inf, .neginf => .neginf
  | .neginf, .inf => .neginf
  | .neginf, .neginf => .inf
  | .inf, .fin q => if q = 0 then .nan else if 0 < q then .inf else .neginf
  | .fin q, .inf => if q = 0 then .nan else if 0 < q then .inf else .neginf
  | .neginf, .fin q => if q = 0 then .nan else if 0 < q then .neginf else .inf
  | .fin q, .neginf => if q = 0 then .nan else if 0 < q then .neginf else .inf
  | .fin a, .fin b => .fin (a * b)

/-- IEEE addition on extended float values (`inf + (-inf)` is NaN). -/
def fpAdd : FP → FP → FP
  | .nan, _ => .nan
  | _, .nan => .nan
  | .inf, .neginf => .nan
  | .neginf, .inf => .nan
  | .inf, _ => .inf
  | _, .inf => .inf
  | .neginf, _ => .neginf
  | _, .neginf => .neginf
  | .fin a, .fin b => .fin (a + b)

/-- IEEE division on extended float values. -/
def fpDiv : FP → FP → FP
  | .nan, _ => .nan
  | _, .nan => .nan
  | .inf, .inf => .nan
  | .inf, .neginf => .nan
  | .neginf, .inf => .nan
  | .neginf, .neginf => .nan
  | .inf, .fin q => if 0 ≤ q then .inf else .neginf
  | .neginf, .fin q => if 0 ≤ q then .neginf else .inf
  | .fin _, .inf => .fin 0
  | .fin _, .neginf => .fin 0
  | .fin a, .fin b => npDiv a b

/-- IEEE strict comparison on extended float values; any comparison against
NaN is `false`. -/
def fpLtB : FP → FP → Bool
  | .nan, _ => false
  | _, .nan => false
  | .fin a, .fin b => decide (a < b)
  | .fin _, .inf => true
  | .fin _, .neginf => false
  | .neginf, .neginf => false
  | .neginf, .fin _ => true
  | .neginf, .inf => true
  | .inf, _ => false

/-- Python's binary `min x y`: it returns `y` exactly when `y < x`. -/
def fpMin (x y : FP) : FP := if fpLtB y x then y else x

/-- `np.sum` over a vector of extended float values. -/
def fpSum (l : List FP) : FP := l.foldl fpAdd (.fin 0)

/-- `np.mean` over a vector of finite doubles: the empty mean is NaN. -/
def npMean (l : List ℚ) : FP :=
  if l.isEmpty then .nan else .fin (l.sum / l.length)

/-! ## The Metropolis-Hastings sampler `MCMCDemo` (cell-43)

Source:
```
def MCMCDemo(x, phat, qpdf, qsample, N, T=100):
    xs = np.zeros(N)
    for i in range(N):
        for t in range(T): # record after T samples
            u = np.random.uniform(0,1)
            xc = qsample(x)
            if u < min(1, np.nan_to_num((phat(xc)*qpdf(x,xc)) / (phat(x)*qpdf(xc,x)))):
                x = xc
        xs[i] = x
    estmean = np.mean(xs)
    return estmean, xs
```
The density functions `phat` and `qpdf` are finite-float valued, hence
modelled as rational-valued functions; the division in the acceptance ratio
is the only place a NaN or infinity can appear, and it is modelled by
`npDiv` followed by `nan_to_num` exactly as in the source. -/

/-- The acceptance-ratio value
`np.nan_to_num((phat(xc)*qpdf(x,xc)) / (phat(x)*qpdf(xc,x)))`
for current state `x` and candidate `xc`. -/
def mhRatio (phat : ℚ → ℚ) (qpdf : ℚ → ℚ → ℚ) (x xc : ℚ) : ℚ :=
  nan_to_num (npDiv (phat xc * qpdf x xc) (phat x * qpdf xc x))

/-- One accept/reject transition of `MCMCDemo`: move to the candidate `xc`
iff `u < min(1, ratio)`. -/
def mhStep (phat : ℚ → ℚ) (qpdf : ℚ → ℚ → ℚ) (x xc u : ℚ) : ℚ :=
  if u < min 1 (mhRatio phat qpdf x xc) then xc else x

/-- The inner `for t in range(T)` loop of `MCMCDemo`, starting at global
step index `base`: step `base + j` consumes the uniform draw `us (base+j)`
and the proposal `qsample (base+j)` applied to the current state. -/
def mhInner (phat : ℚ → ℚ) (qpdf : ℚ → ℚ → ℚ) (qsample : ℕ → ℚ → ℚ)
    (us : ℕ → ℚ) : ℕ → ℕ → ℚ → ℚ
  | _, 0, x => x
  | base, t + 1, x =>
      mhInner phat qpdf qsample us (base + 1) t
        (mhStep phat qpdf x (qsample base x) (us base))

/-- The outer `for i in range(N)` loop of `MCMCDemo`: run `T` inner steps,
record the current state, repeat.  Returns the recorded list `xs`. -/
def mhOuter (phat : ℚ → ℚ) (qpdf : ℚ → ℚ → ℚ) (qsample : ℕ → ℚ → ℚ)
    (us : ℕ → ℚ) (T : ℕ) : ℕ → ℕ → ℚ → List ℚ
  | _, 0, _ => []
  | base, n + 1, x =>
      let x1 := mhInner phat qpdf qsample us base T x
      x1 :: mhOuter phat qpdf qsample us T (base + T) n x1

/-- `MCMCDemo(x, phat, qpdf, qsample, N, T)`: returns the pair
`(estmean, xs)` of the mean of the recorded states and the recorded states
themselves. -/
def MCMCDemo (x : ℚ) (phat : ℚ → ℚ) (qpdf : ℚ → ℚ → ℚ)
    (qsample : ℕ → ℚ → ℚ) (us : ℕ → ℚ) (N T : ℕ) : FP × List ℚ :=
  let xs := mhOuter phat qpdf qsample us T 0 N x
  (npMean xs, xs)

/-! ## Concrete instances used in counterexamples and witnesses -/

/-- A target density vanishing at `0` and positive at `1`. -/
def phatId : ℚ → ℚ := fun t => t

/-- The identically-zero target density. -/
def phatZero : ℚ → ℚ := fun _ => 0

/-- The identically-one target density. -/
def phatOne : ℚ → ℚ := fun _ => 1

/-- A constant proposal density. -/
def qOne : ℚ → ℚ → ℚ := fun _ _ => 1

/-- A uniform stream constantly `1/2`. -/
def usHalf : ℕ → ℚ := fun _ => 1 / 2

/-- A proposal sampler that always proposes `0`. -/
def qsZero : ℕ → ℚ → ℚ := fun _ _ => 0

/-! ### Basic evaluation lemmas -/

theorem npFloatMax_pos : (0 : ℚ) < npFloatMax := by norm_num [npFloatMax]

theorem one_le_npFloatMax : (1 : ℚ) ≤ npFloatMax := by norm_num [npFloatMax]

theorem neg_npFloatMax_neg : -npFloatMax < 0 := by norm_num [npFloatMax]

theorem npDiv_nan (a : ℚ) (h : a = 0) : npDiv a 0 = .nan := by
  simp [npDiv, h]

theorem npDiv_inf (a : ℚ) (h : 0 < a) : npDiv a 0 = .inf := by
  simp [npDiv, h.ne', h]

theorem npDiv_fin (a b : ℚ) (h : b ≠ 0) : npDiv a b = .fin (a / b) := by
  simp [npDiv, h]

example : mhRatio phatId qOne 0 1 = npFloatMax := by
  simp [mhRatio, phatId, qOne, npDiv, nan_to_num]

example : mhStep phatId qOne 0 1 (1 / 2) = 1 := by
  have h1 : min (1 : ℚ) npFloatMax = 1 := min_eq_left one_le_npFloatMax
  simp [mhStep, mhRatio, phatId, qOne, npDiv, nan_to_num, h1]
  norm_num

example : mhStep phatZero qOne 0 1 (1 / 2) = 0 := by
  simp [mhStep, mhRatio, phatZero, qOne, npDiv, nan_to_num]

/-! ## The unnormalized Gamma density `GammaUnnorm` (cell-17)

Source:
```
def GammaUnnorm(x, a=1.99, b=1):
    return np.nan_to_num((b**a) * (x**(a-1)) * np.exp(-b*x))
```
The library float power `**` and `np.exp` are opaque dependencies and are
modelled as function parameters `pw` and `rexp` returning extended float
values, so that the NaN produced by `x**(a-1)` for negative `x` and
fractional `a-1`, and an overflow of `np.exp` to `inf`, are representable. -/

/-- The product `(b**a) * (x**(a-1)) * np.exp(-b*x)` before the final
`np.nan_to_num`. -/
def GammaUnnormCore (pw : ℚ → ℚ → FP) (rexp : ℚ → FP) (x a b : ℚ) : FP :=
  fpMul (fpMul (pw b a) (pw x (a - 1))) (rexp (-(b * x)))

/-- `GammaUnnorm(x, a, b)` (defaults `a=1.99`, `b=1` in the source): the
core product with `np.nan_to_num` applied. -/
def GammaUnnorm (pw : ℚ → ℚ → FP) (rexp : ℚ → FP) (x a b : ℚ) : ℚ :=
  nan_to_num (GammaUnnormCore pw rexp x a b)

/-- A power operation that is constantly `1`. -/
def pwOne : ℚ → ℚ → FP := fun _ _ => .fin 1

/-- A power operation that is constantly `0`. -/
def pwZero : ℚ → ℚ → FP := fun _ _ => .fin 0

/-- A power operation that is constantly NaN (as `x**(a-1)` is on negative
floats `x` with fractional exponent). -/
def pwNan : ℚ → ℚ → FP := fun _ _ => .nan

/-- An exponential operation that is constantly `1`. -/
def rexpOne : ℚ → FP := fun _ => .fin 1

/-! ## Claim C1 -/

/-- C1 counterexample: with the target density `phatId` (zero at the
current state `0`, positive at the candidate `1`) and a constant proposal
density, the raw acceptance ratio from the zero-density current state is
`1/0 = +inf`; `np.nan_to_num` converts it to the largest finite double
`npFloatMax`, not to `0`, and with uniform draw `1/2` the candidate is
accepted: the chain does not remain at the zero-density state. -/
theorem mh_zero_current_counterexample :
    phatId 0 = 0 ∧
    mhRatio phatId qOne 0 1 = npFloatMax ∧
    npFloatMax ≠ 0 ∧
    mhStep phatId qOne 0 1 (1 / 2) = 1 ∧
    (1 : ℚ) ≠ 0 := by
  refine ⟨rfl, ?_, ?_, ?_, by norm_num⟩
  · simp [mhRatio, phatId, qOne, npDiv, nan_to_num]
  · norm_num [npFloatMax]
  · have h1 : min (1 : ℚ) npFloatMax = 1 := min_eq_left one_le_npFloatMax
    simp [mhStep, mhRatio, phatId, qOne, npDiv, nan_to_num, h1]
    norm_num

/-- C1 (amended): from a current state of target density `0`, the step
rejects the candidate exactly when the ratio numerator
`phat(candidate) * qpdf(current, candidate)` is also `0`: then the raw
ratio is `0/0 = NaN` and `np.nan_to_num` maps it to `0`.  When the
numerator is positive, the raw ratio is `+inf`, `np.nan_to_num` maps it
to the largest finite double, and the candidate is accepted. -/
theorem mh_zero_current_amended (phat : ℚ → ℚ) (qpdf : ℚ → ℚ → ℚ)
    (x xc u : ℚ) (hx : phat x = 0) (hu0 : 0 ≤ u) (hu1 : u < 1) :
    (phat xc * qpdf x xc = 0 →
       mhRatio phat qpdf x xc = 0 ∧ mhStep phat qpdf x xc u = x) ∧
    (0 < phat xc * qpdf x xc →
       mhRatio phat qpdf x xc = npFloatMax ∧ mhStep phat qpdf x xc u = xc) := by
  have hden : phat x * qpdf xc x = 0 := by rw [hx, zero_mul]
  constructor
  · intro hnum
    have hr : mhRatio phat qpdf x xc = 0 := by
      simp [mhRatio, hden, hnum, npDiv, nan_to_num]
    have hmin : min (1 : ℚ) 0 = 0 := by norm_num
    exact ⟨hr, by simp [mhStep, hr, hmin, not_lt.mpr hu0]⟩
  · intro hnum
    have hr : mhRatio phat qpdf x xc = npFloatMax := by
      simp [mhRatio, hden, npDiv, hnum.ne', hnum, nan_to_num]
    have hmin : min (1 : ℚ) npFloatMax = 1 := min_eq_left one_le_npFloatMax
    exact ⟨hr, by simp [mhStep, hr, hmin, hu1]⟩

/-- C1 witness: the amended theorem evaluated at the counterexample's
concrete input. -/
theorem mh_zero_current_amended_witness :
    phatId 0 = 0 ∧ (0 : ℚ) ≤ 1 / 2 ∧ (1 / 2 : ℚ) < 1 ∧
    (0 : ℚ) < phatId 1 * qOne 0 1 ∧
    mhRatio phatId qOne 0 1 = npFloatMax ∧
    mhStep phatId qOne 0 1 (1 / 2) = 1 :=
  ⟨rfl, by norm_num, by norm_num, by norm_num [phatId, qOne],
   ((mh_zero_current_amended phatId qOne 0 1 (1 / 2) rfl (by norm_num)
        (by norm_num)).2 (by norm_num [phatId, qOne])).1,
   ((mh_zero_current_amended phatId qOne 0 1 (1 / 2) rfl (by norm_num)
        (by norm_num)).2 (by norm_num [phatId, qOne])).2⟩

/-! ## Claim C2 -/

/-- C2: the acceptance-ratio computation of `MCMCDemo` is NaN-guarded.
Whenever the raw float ratio is NaN, the computed ratio (the value
actually compared against the uniform draw) is `0`; in particular, when
the target density vanishes at both the current and the candidate state
the raw ratio is `0/0 = NaN`, the computed ratio is exactly `0` and the
step rejects; and a NaN arising inside `GammaUnnorm` is likewise
converted to `0` by its final `np.nan_to_num`. -/
theorem mh_ratio_never_nan (phat : ℚ → ℚ) (qpdf : ℚ → ℚ → ℚ) (x xc u : ℚ)
    (hx : phat x = 0) (hxc : phat xc = 0) (hu : 0 ≤ u) :
    (∀ y yc : ℚ, npDiv (phat yc * qpdf y yc) (phat y * qpdf yc y) = .nan →
        mhRatio phat qpdf y yc = 0) ∧
    npDiv (phat xc * qpdf x xc) (phat x * qpdf xc x) = .nan ∧
    mhRatio phat qpdf x xc = 0 ∧
    mhStep phat qpdf x xc u = x ∧
    (∀ (pw : ℚ → ℚ → FP) (rexp : ℚ → FP) (y A B : ℚ),
        GammaUnnormCore pw rexp y A B = .nan → GammaUnnorm pw rexp y A B = 0) := by
  have hraw : npDiv (phat xc * qpdf x xc) (phat x * qpdf xc x) = .nan := by
    simp [npDiv, hx, hxc]
  have hr : mhRatio phat qpdf x xc = 0 := by
    simp [mhRatio, hraw, nan_to_num]
  have hmin : min (1 : ℚ) 0 = 0 := by norm_num
  refine ⟨fun y yc h => ?_, hraw, hr, ?_, fun pw rexp y A B h => ?_⟩
  · simp [mhRatio, h, nan_to_num]
  · simp [mhStep, hr, hmin, not_lt.mpr hu]
  · simp [GammaUnnorm, h, nan_to_num]

/-- C2 witness: the identically-zero target density gives a `0/0` ratio
that is resolved to `0` and a rejected candidate, and a NaN power inside
`GammaUnnorm` is converted to `0`. -/
theorem mh_ratio_never_nan_witness :
    phatZero 0 = 0 ∧ phatZero 1 = 0 ∧ (0 : ℚ) ≤ 1 / 2 ∧
    mhRatio phatZero qOne 0 1 = 0 ∧
    mhStep phatZero qOne 0 1 (1 / 2) = 0 ∧
    GammaUnnorm pwNan rexpOne 2 3 4 = 0 :=
  ⟨rfl, rfl, by norm_num,
   (mh_ratio_never_nan phatZero qOne 0 1 (1 / 2) rfl rfl (by norm_num)).2.2.1,
   (mh_ratio_never_nan phatZero qOne 0 1 (1 / 2) rfl rfl (by norm_num)).2.2.2.1,
   (mh_ratio_never_nan phatZero qOne 0 1 (1 / 2) rfl rfl
       (by norm_num)).2.2.2.2 pwNan rexpOne 2 3 4 rfl⟩

/-! ## Claim C4 -/

/-- The recorded list produced by the outer loop has exactly `N` entries,
one per output slot, whatever the thinning interval is. -/
theorem mhOuter_length (phat : ℚ → ℚ) (qpdf : ℚ → ℚ → ℚ)
    (qsample : ℕ → ℚ → ℚ) (us : ℕ → ℚ) (T : ℕ) :
    ∀ (N base : ℕ) (x : ℚ), (mhOuter phat qpdf qsample us T base N x).length = N := by
  intro N
  induction N with
  | zero => intro base x; rfl
  | succ n ih => intro base x; simp [mhOuter, ih]

/-- C4: for every initial state, target density, proposal density and
proposal sampler, every requested sample count `N` and every thinning
interval `T ≥ 1`, the sample sequence returned by `MCMCDemo` has length
exactly `N`, independently of `T`. -/
theorem mcmc_output_length (x : ℚ) (phat : ℚ → ℚ) (qpdf : ℚ → ℚ → ℚ)
    (qsample : ℕ → ℚ → ℚ) (us : ℕ → ℚ) (N T : ℕ) (hT : 1 ≤ T) :
    ((MCMCDemo x phat qpdf qsample us N T).2).length = N := by
  simp [MCMCDemo, mhOuter_length]

/-- C4 witness: a concrete run with `N = 2`, `T = 5` records two samples. -/
theorem mcmc_output_length_witness :
    1 ≤ 5 ∧ ((MCMCDemo 0 phatOne qOne qsZero usHalf 2 5).2).length = 2 :=
  ⟨by norm_num, mcmc_output_length 0 phatOne qOne qsZero usHalf 2 5 (by norm_num)⟩

/-! ## Claim C9 -/

/-- A candidate with zero target density is never accepted: its ratio
numerator vanishes, so the computed acceptance ratio is `0` (whether the
raw ratio was `0/0 = NaN` or an exact `0`), and a uniform draw `u ≥ 0` is
never below `min 1 0 = 0`. -/
theorem mhStep_zero_candidate (phat : ℚ → ℚ) (qpdf : ℚ → ℚ → ℚ)
    (x xc u : ℚ) (hu : 0 ≤ u) (hxc : phat xc = 0) :
    mhRatio phat qpdf x xc = 0 ∧ mhStep phat qpdf x xc u = x := by
  have hnum : phat xc * qpdf x xc = 0 := by rw [hxc, zero_mul]
  have hr : mhRatio phat qpdf x xc = 0 := by
    rcases eq_or_ne (phat x * qpdf xc x) 0 with hden | hden
    · simp [mhRatio, npDiv, hnum, hden, nan_to_num]
    · simp [mhRatio, npDiv, hnum, hden, nan_to_num]
  have hmin : min (1 : ℚ) 0 = 0 := by norm_num
  exact ⟨hr, by simp [mhStep, hr, hmin, not_lt.mpr hu]⟩

/-- With a strictly positive proposal density, one accept/reject step from
a state of positive target density lands in a state of positive target
density: an accepted candidate must itself have positive density, since
otherwise the ratio is `≤ 0` and `u ≥ 0` cannot be below it. -/
theorem mhStep_pos (phat : ℚ → ℚ) (qpdf : ℚ → ℚ → ℚ)
    (hq : ∀ y z, 0 < qpdf y z) (x xc u : ℚ) (hu : 0 ≤ u) (hx : 0 < phat x) :
    0 < phat (mhStep phat qpdf x xc u) := by
  by_cases hacc : u < min 1 (mhRatio phat qpdf x xc)
  · have hxc : 0 < phat xc := by
      by_contra hle
      push_neg at hle
      have hnum : phat xc * qpdf x xc ≤ 0 := by nlinarith [hq x xc]
      have hden : 0 < phat x * qpdf xc x := mul_pos hx (hq xc x)
      have hr : mhRatio phat qpdf x xc =
          (phat xc * qpdf x xc) / (phat x * qpdf xc x) := by
        simp [mhRatio, npDiv, hden.ne', nan_to_num]
      have hrle : mhRatio phat qpdf x xc ≤ 0 := by
        rw [hr]
        exact div_nonpos_iff.mpr (Or.inr ⟨hnum, hden.le⟩)
      have hm : min 1 (mhRatio phat qpdf x xc) ≤ 0 :=
        le_trans (min_le_right _ _) hrle
      exact absurd (lt_of_lt_of_le hacc hm) (not_lt.mpr hu)
    simpa [mhStep, hacc] using hxc
  · simpa [mhStep, hacc] using hx

/-- Positivity of the target density is preserved through the inner loop,
hence by every intermediate chain state. -/
theorem mhInner_pos (phat : ℚ → ℚ) (qpdf : ℚ → ℚ → ℚ)
    (qsample : ℕ → ℚ → ℚ) (us : ℕ → ℚ)
    (hq : ∀ y z, 0 < qpdf y z) (hu : ∀ i, 0 ≤ us i) :
    ∀ (t base : ℕ) (x : ℚ), 0 < phat x →
      0 < phat (mhInner phat qpdf qsample us base t x) := by
  intro t
  induction t with
  | zero => intro base x hx; simpa [mhInner] using hx
  | succ n ih =>
      intro base x hx
      simp only [mhInner]
      exact ih (base + 1) _ (mhStep_pos phat qpdf hq x _ _ (hu base) hx)

/-- Positivity of the target density holds for every recorded sample. -/
theorem mhOuter_mem_pos (phat : ℚ → ℚ) (qpdf : ℚ → ℚ → ℚ)
    (qsample : ℕ → ℚ → ℚ) (us : ℕ → ℚ) (T : ℕ)
    (hq : ∀ y z, 0 < qpdf y z) (hu : ∀ i, 0 ≤ us i) :
    ∀ (n base : ℕ) (x : ℚ), 0 < phat x →
      ∀ y ∈ mhOuter phat qpdf qsample us T base n x, 0 < phat y := by
  intro n
  induction n with
  | zero => intro base x hx y hy; simp [mhOuter] at hy
  | succ m ih =>
      intro base x hx y hy
      simp only [mhOuter, List.mem_cons] at hy
      have h1 : 0 < phat (mhInner phat qpdf qsample us base T x) :=
        mhInner_pos phat qpdf qsample us hq hu T base x hx
      rcases hy with rfl | hy
      · exact h1
      · exact ih (base + T) _ h1 y hy

/-- C9: if the initial state has positive target density and the proposal
density is strictly positive on all argument pairs, then every
intermediate chain state reachable by the inner loop from a
positive-density state, and every recorded sample of `MCMCDemo`, has
positive target density; and a candidate of zero target density is never
accepted, since its acceptance ratio is `0` and `u ≥ 0` is never strictly
below `min 1 0 = 0`. -/
theorem mcmc_positive_invariant (phat : ℚ → ℚ) (qpdf : ℚ → ℚ → ℚ)
    (qsample : ℕ → ℚ → ℚ) (us : ℕ → ℚ) (x0 : ℚ)
    (hx0 : 0 < phat x0) (hq : ∀ y z, 0 < qpdf y z)
    (hu : ∀ i, 0 ≤ us i ∧ us i < 1) :
    (∀ (base t : ℕ) (x : ℚ), 0 < phat x →
        0 < phat (mhInner phat qpdf qsample us base t x)) ∧
    (∀ N T : ℕ, ∀ y ∈ (MCMCDemo x0 phat qpdf qsample us N T).2, 0 < phat y) ∧
    (∀ x xc u : ℚ, 0 ≤ u → phat xc = 0 →
        mhRatio phat qpdf x xc = 0 ∧ mhStep phat qpdf x xc u = x) := by
  refine ⟨fun base t x hx => mhInner_pos phat qpdf qsample us hq
      (fun i => (hu i).1) t base x hx, fun N T y hy => ?_,
    fun x xc u hu0 hxc => mhStep_zero_candidate phat qpdf x xc u hu0 hxc⟩
  have : y ∈ mhOuter phat qpdf qsample us T 0 N x0 := by
    simpa [MCMCDemo] using hy
  exact mhOuter_mem_pos phat qpdf qsample us T hq (fun i => (hu i).1)
    N 0 x0 hx0 y this

/-- C9 witness: the invariant theorem evaluated with the identity target
density, constant proposal density and a proposal sampler that always
proposes the zero-density state `0`: the inner loop started at `1` stays
positive and the zero-density candidate is rejected. -/
theorem mcmc_positive_invariant_witness :
    (0 : ℚ) < phatId 1 ∧ phatId 0 = 0 ∧
    0 < phatId (mhInner phatId qOne qsZero usHalf 0 3 1) ∧
    mhStep phatId qOne 1 0 (1 / 2) = 1 :=
  ⟨by norm_num [phatId], rfl,
   (mcmc_positive_invariant phatId qOne qsZero usHalf 1 (by norm_num [phatId])
      (fun y z => by norm_num [qOne])
      (fun i => ⟨by norm_num [usHalf], by norm_num [usHalf]⟩)).1 0 3 1
      (by norm_num [phatId]),
   ((mcmc_positive_invariant phatId qOne qsZero usHalf 1 (by norm_num [phatId])
      (fun y z => by norm_num [qOne])
      (fun i => ⟨by norm_num [usHalf], by norm_num [usHalf]⟩)).2.2 1 0 (1 / 2)
      (by norm_num) rfl).2⟩

/-! ## Claim C3: the spec's algorithm, stated from the spec's words

Spec §4.1: for each of `N` output slots, repeat `T` times: draw a
candidate from `qsample(current)` and a uniform `u` in `[0,1)`, compute
the acceptance ratio
`r = (phat(candidate)*qpdf(current,candidate)) / (phat(current)*qpdf(candidate,current))`
treating any resulting NaN as `0`, and move to the candidate iff
`u < min(1, r)`; after the `T` inner steps record the current state;
finally return the recorded sequence together with its arithmetic mean.
The ratio here is an extended float value (it may be infinite), NaN is
replaced by `0` before the comparison, and `min` and `<` are the float
operations. -/

/-- Spec-side NaN guard: a NaN acceptance ratio is treated as `0`. -/
def nanToZero (v : FP) : FP := if v = .nan then .fin 0 else v

/-- Spec-side raw acceptance ratio, an extended float value. -/
def specRatio (phat : ℚ → ℚ) (qpdf : ℚ → ℚ → ℚ) (x xc : ℚ) : FP :=
  npDiv (phat xc * qpdf x xc) (phat x * qpdf xc x)

/-- Spec-side acceptance test: `u < min(1, r)` with NaN treated as `0`. -/
def specAccept (phat : ℚ → ℚ) (qpdf : ℚ → ℚ → ℚ) (x xc u : ℚ) : Bool :=
  fpLtB (.fin u) (fpMin (.fin 1) (nanToZero (specRatio phat qpdf x xc)))

/-- Spec-side accept/reject transition. -/
def specStep (phat : ℚ → ℚ) (qpdf : ℚ → ℚ → ℚ) (x xc u : ℚ) : ℚ :=
  if specAccept phat qpdf x xc u then xc else x

/-- Spec-side inner loop: `T` transitions, consuming one candidate and one
uniform draw each. -/
def specInner (phat : ℚ → ℚ) (qpdf : ℚ → ℚ → ℚ) (qsample : ℕ → ℚ → ℚ)
    (us : ℕ → ℚ) : ℕ → ℕ → ℚ → ℚ
  | _, 0, x => x
  | base, t + 1, x =>
      specInner phat qpdf qsample us (base + 1) t
        (specStep phat qpdf x (qsample base x) (us base))

/-- Spec-side outer loop: record the current state after every `T` inner
steps. -/
def specOuter (phat : ℚ → ℚ) (qpdf : ℚ → ℚ → ℚ) (qsample : ℕ → ℚ → ℚ)
    (us : ℕ → ℚ) (T : ℕ) : ℕ → ℕ → ℚ → List ℚ
  | _, 0, _ => []
  | base, n + 1, x =>
      let x1 := specInner phat qpdf qsample us base T x
      x1 :: specOuter phat qpdf qsample us T (base + T) n x1

/-- Spec-side arithmetic mean of the recorded sequence. -/
def specMean (l : List ℚ) : FP :=
  if l = [] then .nan else .fin (l.sum / l.length)

/-- Spec-side sampler: the recorded sequence together with its mean. -/
def specMCMC (x : ℚ) (phat : ℚ → ℚ) (qpdf : ℚ → ℚ → ℚ)
    (qsample : ℕ → ℚ → ℚ) (us : ℕ → ℚ) (N T : ℕ) : FP × List ℚ :=
  let xs := specOuter phat qpdf qsample us T 0 N x
  (specMean xs, xs)

/-- For a uniform draw `u ≥ 0` the spec-side accept/reject transition and
the decision `MCMCDemo` makes through `np.nan_to_num` coincide: the
NaN-to-`0` and `+inf`-to-largest-finite-double conversions produce the
same comparison outcome against `min 1 ·`. -/
theorem specStep_eq_mhStep (phat : ℚ → ℚ) (qpdf : ℚ → ℚ → ℚ)
    (x xc u : ℚ) (hu : 0 ≤ u) :
    specStep phat qpdf x xc u = mhStep phat qpdf x xc u := by
  unfold specStep mhStep specAccept mhRatio
  cases h : specRatio phat qpdf x xc with
  | nan =>
      have hmin : min (1 : ℚ) 0 = 0 := by norm_num
      rw [specRatio] at h
      simp [h, nanToZero, fpMin, fpLtB, nan_to_num, hmin, not_lt.mpr hu]
  | inf =>
      have hmin : min (1 : ℚ) npFloatMax = 1 := min_eq_left one_le_npFloatMax
      rw [specRatio] at h
      simp [h, nanToZero, fpMin, fpLtB, nan_to_num, hmin]
  | neginf =>
      have hmin : min (1 : ℚ) (-npFloatMax) = -npFloatMax := by
        have := neg_npFloatMax_neg
        exact min_eq_right (by linarith)
      have hneg : ¬ u < -npFloatMax := not_lt.mpr (le_trans (by linarith [neg_npFloatMax_neg]) hu)
      rw [specRatio] at h
      simp [h, nanToZero, fpMin, fpLtB, nan_to_num, hmin, hneg]
  | fin q =>
      rw [specRatio] at h
      rcases le_or_lt 1 q with h1 | h1
      · have hmin : min (1 : ℚ) q = 1 := min_eq_left h1
        simp [h, nanToZero, fpMin, fpLtB, nan_to_num, hmin, not_lt.mpr h1]
      · have hmin : min (1 : ℚ) q = q := min_eq_right h1.le
        simp [h, nanToZero, fpMin, fpLtB, nan_to_num, hmin, h1]

/-- The spec-side and source-side inner loops coincide when every uniform
draw is nonnegative. -/
theorem specInner_eq_mhInner (phat : ℚ → ℚ) (qpdf : ℚ → ℚ → ℚ)
    (qsample : ℕ → ℚ → ℚ) (us : ℕ → ℚ) (hu : ∀ i, 0 ≤ us i) :
    ∀ (t base : ℕ) (x : ℚ),
      specInner phat qpdf qsample us base t x =
        mhInner phat qpdf qsample us base t x := by
  intro t
  induction t with
  | zero => intro base x; rfl
  | succ n ih =>
      intro base x
      simp only [specInner, mhInner,
        specStep_eq_mhStep phat qpdf x (qsample base x) (us base) (hu base), ih]

/-- The spec-side and source-side outer loops coincide when every uniform
draw is nonnegative. -/
theorem specOuter_eq_mhOuter (phat : ℚ → ℚ) (qpdf : ℚ → ℚ → ℚ)
    (qsample : ℕ → ℚ → ℚ) (us : ℕ → ℚ) (T : ℕ) (hu : ∀ i, 0 ≤ us i) :
    ∀ (n base : ℕ) (x : ℚ),
      specOuter phat qpdf qsample us T base n x =
        mhOuter phat qpdf qsample us T base n x := by
  intro n
  induction n with
  | zero => intro base x; rfl
  | succ m ih =>
      intro base x
      simp only [specOuter, mhOuter,
        specInner_eq_mhInner phat qpdf qsample us hu T base x, ih]

/-- The two definitions of the arithmetic mean coincide. -/
theorem specMean_eq_npMean (l : List ℚ) : specMean l = npMean l := by
  cases l <;> simp [specMean, npMean]

/-- C3: `MCMCDemo` implements exactly the algorithm the spec states: for
each of `N` output slots it performs `T` accept/reject steps, each
drawing a candidate and a uniform `u` in `[0,1)`, accepting iff
`u < min(1, r)` where `r` is the density ratio with NaN treated as `0`;
it records the state after every `T` steps and returns the recorded
sequence with its arithmetic mean. -/
theorem mcmc_matches_spec (x : ℚ) (phat : ℚ → ℚ) (qpdf : ℚ → ℚ → ℚ)
    (qsample : ℕ → ℚ → ℚ) (us : ℕ → ℚ) (N T : ℕ)
    (hu : ∀ i, 0 ≤ us i ∧ us i < 1) :
    specMCMC x phat qpdf qsample us N T = MCMCDemo x phat qpdf qsample us N T := by
  have h := specOuter_eq_mhOuter phat qpdf qsample us T (fun i => (hu i).1) N 0 x
  simp [specMCMC, MCMCDemo, h, specMean_eq_npMean]

/-- C3 witness: the refinement theorem evaluated on a concrete instance. -/
theorem mcmc_matches_spec_witness :
    (0 ≤ usHalf 0 ∧ usHalf 0 < 1) ∧
    specMCMC 0 phatOne qOne qsZero usHalf 3 2 = MCMCDemo 0 phatOne qOne qsZero usHalf 3 2 :=
  ⟨⟨by norm_num [usHalf], by norm_num [usHalf]⟩,
   mcmc_matches_spec 0 phatOne qOne qsZero usHalf 3 2
     (fun i => ⟨by norm_num [usHalf], by norm_num [usHalf]⟩)⟩

/-! ## Claim C8: the burn-in-then-record usage (cell-44)

Source:
```
phat = lambda x : GammaUnnorm(x, a=a, b=b)
qpdf = lambda x, mu : stats.norm.pdf(x, mu, 1.0)
qsample = lambda mu : stats.norm.rvs(mu,1.0)
x = 0.0
N = 1000
Nburnin = 1000
T = 50
MCMCDemo(0, phat, qpdf, qsample, N=Nburnin, T=1)
estmean, xs = MCMCDemo(x, phat, qpdf, qsample, N=N, T=T)
```
The burn-in call's result is discarded; the recording call is a fresh
invocation starting from the caller's literal `x`.  The normal pdf is the
opaque parameter `normpdf`; the random draws of the two calls are separate
streams (`usB`, `qsB` for the burn-in run, `usR`, `qsR` for the recording
run), which models "the same random draws consumed by the recording run"
across different burn-in outcomes. -/

/-- The burn-in-then-record usage of cell-44, with the cell's literals
(`x`, `N`, `Nburnin`, `T`) as parameters. -/
def cell44 (pw : ℚ → ℚ → FP) (rexp : ℚ → FP) (a b : ℚ)
    (normpdf : ℚ → ℚ → ℚ) (x : ℚ) (Nburnin N T : ℕ)
    (usB : ℕ → ℚ) (qsB : ℕ → ℚ → ℚ) (usR : ℕ → ℚ) (qsR : ℕ → ℚ → ℚ) :
    FP × List ℚ :=
  let phat : ℚ → ℚ := fun t => GammaUnnorm pw rexp t a b
  let qpdf : ℚ → ℚ → ℚ := fun t mu => normpdf t mu
  let _burnin := MCMCDemo 0 phat qpdf qsB usB Nburnin 1
  MCMCDemo x phat qpdf qsR usR N T

/-- C8: the recording invocation of cell-44 starts from the caller's
literal initial value `x` and is unchanged by anything the burn-in chain
does: replacing the burn-in run's entire randomness (hence its final
state, whatever it is) leaves the recorded output identical, and the
result is exactly a single `MCMCDemo` run from `x` on the recording run's
own draws. -/
theorem cell44_ignores_burnin (pw : ℚ → ℚ → FP) (rexp : ℚ → FP) (a b : ℚ)
    (normpdf : ℚ → ℚ → ℚ) (x : ℚ) (Nburnin Nburnin' N T : ℕ)
    (usB : ℕ → ℚ) (qsB : ℕ → ℚ → ℚ) (usB' : ℕ → ℚ) (qsB' : ℕ → ℚ → ℚ)
    (usR : ℕ → ℚ) (qsR : ℕ → ℚ → ℚ) :
    cell44 pw rexp a b normpdf x Nburnin N T usB qsB usR qsR =
      cell44 pw rexp a b normpdf x Nburnin' N T usB' qsB' usR qsR ∧
    cell44 pw rexp a b normpdf x Nburnin N T usB qsB usR qsR =
      MCMCDemo x (fun t => GammaUnnorm pw rexp t a b) normpdf qsR usR N T :=
  ⟨rfl, rfl⟩

/-! ## The rejection sampler `rejSamplingDemo` (cell-20)

Source:
```
def rejSamplingDemo(a,b, qpdf, k, N=10000):
    x = qpdf.rvs(size=N)
    u = random.uniform(0,1,N)
    t = u < GammaUnnorm(x, a=a, b=b)/(k*qpdf.pdf(x))
    ic = np.where(t == True)[0] #inside indices
    estmean = np.mean(x[ic])
    return estmean, x[ic],
```
The `N` proposal draws and the `N` uniform draws are the explicit input
lists `xs` and `us`; `qpdf.pdf` is the opaque density function `qpdf`.
The vectorized comparison produces the boolean mask `t`, `np.where` the
index list `ic`, and fancy indexing `x[ic]` the accepted subset. -/

/-- The per-element acceptance test
`u < GammaUnnorm(x,a,b)/(k*qpdf.pdf(x))` (an IEEE comparison: the ratio
may be `inf` or NaN when `k*qpdf.pdf(x) = 0`). -/
def acceptB (pw : ℚ → ℚ → FP) (rexp : ℚ → FP) (a b : ℚ) (qpdf : ℚ → ℚ)
    (k : ℚ) (xi ui : ℚ) : Bool :=
  fpLtB (.fin ui) (npDiv (GammaUnnorm pw rexp xi a b) (k * qpdf xi))

/-- `rejSamplingDemo(a, b, qpdf, k)` on the draws `xs` (proposal samples)
and `us` (uniforms): the mean of the accepted subset, and that subset. -/
def rejSamplingDemo (pw : ℚ → ℚ → FP) (rexp : ℚ → FP) (a b : ℚ)
    (qpdf : ℚ → ℚ) (k : ℚ) (xs us : List ℚ) : FP × List ℚ :=
  let t := List.zipWith (fun ui xi => acceptB pw rexp a b qpdf k xi ui) us xs
  let ic := (List.range t.length).filter (fun i => t.getD i false)
  let sel := ic.map (fun i => xs.getD i 0)
  (npMean sel, sel)

/-- Filtering a successor-mapped index list shifts the predicate. -/
theorem filter_map_succ (p : ℕ → Bool) (l : List ℕ) :
    (l.map Nat.succ).filter p = (l.filter (fun i => p (i + 1))).map Nat.succ := by
  induction l with
  | nil => rfl
  | cons x xs ih =>
      simp only [List.map_cons, List.filter_cons, Nat.succ_eq_add_one]
      by_cases h : p (x + 1)
      · simp [h, ih]
      · simp [h, ih]

/-- Mask-building, `np.where` and fancy indexing amount to filtering the
zipped draws by the acceptance test and keeping the sample components. -/
theorem select_where_eq_filter (f : ℚ → ℚ → Bool) :
    ∀ xs us : List ℚ, xs.length = us.length →
      (((List.range (List.zipWith (fun ui xi => f xi ui) us xs).length).filter
          (fun i => (List.zipWith (fun ui xi => f xi ui) us xs).getD i false)).map
        (fun i => xs.getD i 0)) =
      ((xs.zip us).filter (fun p => f p.1 p.2)).map Prod.fst := by
  intro xs
  induction xs with
  | nil => intro us h; simp
  | cons x xs ih =>
      intro us h
      cases us with
      | nil => simp at h
      | cons u us' =>
          have h' : xs.length = us'.length := by simpa using h
          have key := ih us' h'
          simp only [List.zipWith_cons_cons, List.length_cons,
            List.range_succ_eq_map, List.filter_cons, List.getD_cons_zero,
            List.zip_cons_cons]
          rw [filter_map_succ]
          simp only [List.getD_cons_succ]
          by_cases hfu : f x u
          · simp only [hfu, if_true, List.map_cons, List.getD_cons_zero,
              List.map_map, Function.comp_def, List.getD_cons_succ]
            exact congrArg (List.cons x) key
          · simp only [hfu, Bool.false_eq_true, if_false, List.map_map,
              Function.comp_def, List.getD_cons_succ]
            exact key

/-- A proposal density that is constantly `1`. -/
def qpOne : ℚ → ℚ := fun _ => 1

/-- C7: given `N` proposal draws and `N` uniform draws, `rejSamplingDemo`
accepts draw `i` exactly when `u_i` is strictly below
`GammaUnnorm(x_i,a,b)/(k*qpdf(x_i))`: the returned subset is the
order-preserving filter of the draws by that test, and the returned
estimate is the arithmetic mean of exactly that subset. -/
theorem rej_accepts_iff (pw : ℚ → ℚ → FP) (rexp : ℚ → FP) (a b : ℚ)
    (qpdf : ℚ → ℚ) (k : ℚ) (xs us : List ℚ) (hlen : xs.length = us.length) :
    (rejSamplingDemo pw rexp a b qpdf k xs us).2 =
      ((xs.zip us).filter
        (fun p => acceptB pw rexp a b qpdf k p.1 p.2)).map Prod.fst ∧
    (rejSamplingDemo pw rexp a b qpdf k xs us).1 =
      npMean (((xs.zip us).filter
        (fun p => acceptB pw rexp a b qpdf k p.1 p.2)).map Prod.fst) := by
  have h := select_where_eq_filter (acceptB pw rexp a b qpdf k) xs us hlen
  constructor
  · simpa [rejSamplingDemo] using h
  · simp only [rejSamplingDemo]
    rw [h]

/-- C7 witness: with the constant-`1` power and exponential, `a = b = 1`,
`k = 1` and constant proposal density, the draw `3` with uniform `1/2` is
accepted (its ratio is `1`) and the draw at uniform `2` is rejected. -/
theorem rej_accepts_iff_witness :
    ([3, 4] : List ℚ).length = ([1/2, 2] : List ℚ).length ∧
    (rejSamplingDemo pwOne rexpOne 1 1 qpOne 1 [3, 4] [1/2, 2]).2 =
      (([3, 4].zip [1/2, 2]).filter
        (fun p => acceptB pwOne rexpOne 1 1 qpOne 1 p.1 p.2)).map Prod.fst :=
  ⟨rfl, (rej_accepts_iff pwOne rexpOne 1 1 qpOne 1 [3, 4] [1/2, 2] rfl).1⟩

/-- C10: if the acceptance test rejects every one of the zipped draws, the
accepted subset is empty and the returned estimate is the mean of an
empty vector, which is NaN; `rejSamplingDemo` performs no check for this
case. -/
theorem rej_all_rejected_nan (pw : ℚ → ℚ → FP) (rexp : ℚ → FP) (a b : ℚ)
    (qpdf : ℚ → ℚ) (k : ℚ) (xs us : List ℚ) (hlen : xs.length = us.length)
    (hrej : ∀ p ∈ xs.zip us, acceptB pw rexp a b qpdf k p.1 p.2 = false) :
    (rejSamplingDemo pw rexp a b qpdf k xs us).2 = [] ∧
    (rejSamplingDemo pw rexp a b qpdf k xs us).1 = .nan := by
  have hfil : (xs.zip us).filter
      (fun p => acceptB pw rexp a b qpdf k p.1 p.2) = [] := by
    rw [List.filter_eq_nil_iff]
    intro p hp
    simp [hrej p hp]
  have h := rej_accepts_iff pw rexp a b qpdf k xs us hlen
  refine ⟨?_, ?_⟩
  · rw [h.1, hfil]; rfl
  · rw [h.2, hfil]; rfl

/-- C10 witness: with the constant-`0` power operation the target density
is identically `0`, every ratio is `0`, both draws are rejected and the
returned estimate is NaN. -/
theorem rej_all_rejected_nan_witness :
    acceptB pwZero rexpOne 1 1 qpOne 1 3 (1/2) = false ∧
    (rejSamplingDemo pwZero rexpOne 1 1 qpOne 1 [3, 4] [1/2, 2/3]).2 = [] ∧
    (rejSamplingDemo pwZero rexpOne 1 1 qpOne 1 [3, 4] [1/2, 2/3]).1 = .nan := by
  have hacc : ∀ xi ui : ℚ, 0 ≤ ui → acceptB pwZero rexpOne 1 1 qpOne 1 xi ui = false := by
    intro xi ui hui
    have hg : GammaUnnorm pwZero rexpOne xi 1 1 = 0 := by
      simp [GammaUnnorm, GammaUnnormCore, pwZero, rexpOne, fpMul, nan_to_num]
    have hq : (1 : ℚ) * qpOne xi ≠ 0 := by norm_num [qpOne]
    rw [acceptB, hg, npDiv_fin _ _ hq]
    simp only [fpLtB, zero_div, decide_eq_false_iff_not]
    exact not_lt.mpr hui
  have h := rej_all_rejected_nan pwZero rexpOne 1 1 qpOne 1 [3, 4] [1/2, 2/3]
    rfl (by
      intro p hp
      have h0 : (0:ℚ) ≤ p.2 := by
        simp only [List.zip_cons_cons, List.zip_nil_right, List.mem_cons,
          List.not_mem_nil, or_false] at hp
        rcases hp with rfl | rfl <;> norm_num
      exact hacc p.1 p.2 h0)
  exact ⟨hacc 3 (1/2) (by norm_num), h.1, h.2⟩

/-! ## The importance sampler `impSamplingDemo` (cell-33)

Source:
```
def impSamplingDemo(a,b, qpdf, N=10000):
    x = qpdf.rvs(size=N)
    wl = GammaUnnorm(x,a,b)/qpdf.pdf(x)
    wl = wl / np.sum(wl)
    estmean = np.sum(x*wl)
    return estmean, x, wl
```
The `N` proposal draws are the explicit input list `xs`; `qpdf.pdf` is the
opaque density function `qpdf`.  All vectorized operations are elementwise
IEEE operations on extended float values. -/

/-- `impSamplingDemo(a, b, qpdf)` on the draws `xs`: the weighted-average
estimate, the draws, and the normalized weights. -/
def impSamplingDemo (pw : ℚ → ℚ → FP) (rexp : ℚ → FP) (a b : ℚ)
    (qpdf : ℚ → ℚ) (xs : List ℚ) : FP × List ℚ × List FP :=
  let wl0 := xs.map (fun xi => npDiv (GammaUnnorm pw rexp xi a b) (qpdf xi))
  let s := fpSum wl0
  let wl := wl0.map (fun w => fpDiv w s)
  let estmean := fpSum (List.zipWith (fun xi w => fpMul (.fin xi) w) xs wl)
  (estmean, xs, wl)

/-- The raw importance weight of one sample: unnormalized target density
over proposal density, as an exact rational (meaningful when the proposal
density does not vanish there). -/
def rawWeight (pw : ℚ → ℚ → FP) (rexp : ℚ → FP) (a b : ℚ)
    (qpdf : ℚ → ℚ) (xi : ℚ) : ℚ :=
  GammaUnnorm pw rexp xi a b / qpdf xi

/-- Summing a vector of finite values with `np.sum` gives the finite exact
sum. -/
theorem fpSum_map_fin (l : List ℚ) : fpSum (l.map FP.fin) = .fin l.sum := by
  suffices h : ∀ c : ℚ, List.foldl fpAdd (.fin c) (l.map FP.fin) = .fin (c + l.sum) by
    simpa [fpSum] using h 0
  induction l with
  | nil => intro c; simp [fpAdd]
  | cons x xs ih =>
      intro c
      simp only [List.map_cons, List.foldl_cons, fpAdd, ih, List.sum_cons]
      rw [add_assoc]

/-- Dividing each summand by a constant divides the sum. -/
theorem sum_map_div (l : List ℚ) (f : ℚ → ℚ) (c : ℚ) :
    (l.map (fun x => f x / c)).sum = (l.map f).sum / c := by
  induction l with
  | nil => simp
  | cons x xs ih => simp [ih, add_div]

/-- Zipping a list with itself is mapping the diagonal. -/
theorem zipWith_self_map {α β : Type} (f : α → α → β) :
    ∀ l : List α, List.zipWith f l l = l.map (fun x => f x x) := by
  intro l
  induction l with
  | nil => rfl
  | cons x xs ih => simp [ih]

/-- Summing a vector of pointwise-finite values with `np.sum` gives the
finite exact sum. -/
theorem fpSum_map_fin_comp (l : List ℚ) (h : ℚ → ℚ) :
    fpSum (l.map (fun x => FP.fin (h x))) = .fin ((l.map h).sum) := by
  simpa [List.map_map, Function.comp_def] using fpSum_map_fin (l.map h)

/-- C6 (amended): for a nonempty sample list whose raw weights are all
finite and positive, the normalized weights returned by `impSamplingDemo`
are the raw weights divided by their total, they sum exactly to `1`, and
the returned estimate is exactly the weighted average of the samples
under those normalized weights. -/
theorem imp_weights_normalized (pw : ℚ → ℚ → FP) (rexp : ℚ → FP) (a b : ℚ)
    (qpdf : ℚ → ℚ) (xs : List ℚ) (hne : xs ≠ [])
    (hw : ∀ xi ∈ xs, qpdf xi ≠ 0 ∧ 0 < rawWeight pw rexp a b qpdf xi) :
    (impSamplingDemo pw rexp a b qpdf xs).2.2 =
      xs.map (fun xi => FP.fin (rawWeight pw rexp a b qpdf xi /
        (xs.map (rawWeight pw rexp a b qpdf)).sum)) ∧
    (xs.map (fun xi => rawWeight pw rexp a b qpdf xi /
        (xs.map (rawWeight pw rexp a b qpdf)).sum)).sum = 1 ∧
    (impSamplingDemo pw rexp a b qpdf xs).1 =
      .fin ((xs.map (fun xi => xi * (rawWeight pw rexp a b qpdf xi /
        (xs.map (rawWeight pw rexp a b qpdf)).sum))).sum) := by
  have hS : 0 < (xs.map (rawWeight pw rexp a b qpdf)).sum := by
    apply List.sum_pos
    · intro w hwmem
      rcases List.mem_map.mp hwmem with ⟨xi, hxi, rfl⟩
      exact (hw xi hxi).2
    · intro hmap
      exact hne (List.map_eq_nil_iff.mp hmap)
  have hwl0 : xs.map (fun xi => npDiv (GammaUnnorm pw rexp xi a b) (qpdf xi)) =
      xs.map (fun xi => FP.fin (rawWeight pw rexp a b qpdf xi)) :=
    List.map_congr_left fun xi hxi => by
      rw [npDiv_fin _ _ (hw xi hxi).1]; rfl
  have hfs : fpSum (xs.map (fun xi => FP.fin (rawWeight pw rexp a b qpdf xi))) =
      .fin ((xs.map (rawWeight pw rexp a b qpdf)).sum) := by
    simpa [List.map_map, Function.comp_def]
      using fpSum_map_fin (xs.map (rawWeight pw rexp a b qpdf))
  have hwl : (xs.map (fun xi => FP.fin (rawWeight pw rexp a b qpdf xi))).map
        (fun w => fpDiv w (.fin ((xs.map (rawWeight pw rexp a b qpdf)).sum))) =
      xs.map (fun xi => FP.fin (rawWeight pw rexp a b qpdf xi /
        (xs.map (rawWeight pw rexp a b qpdf)).sum)) := by
    rw [List.map_map]
    apply List.map_congr_left
    intro xi hxi
    simp only [Function.comp_def, fpDiv]
    exact npDiv_fin _ _ hS.ne'
  refine ⟨?_, ?_, ?_⟩
  · simp only [impSamplingDemo, hwl0, hfs, hwl]
  · rw [sum_map_div]
    exact div_self hS.ne'
  · simp only [impSamplingDemo, hwl0, hfs, hwl]
    rw [List.zipWith_map_right, zipWith_self_map]
    have hmul : xs.map (fun xi => fpMul (.fin xi)
          (.fin (rawWeight pw rexp a b qpdf xi /
            (xs.map (rawWeight pw rexp a b qpdf)).sum))) =
        xs.map (fun xi => FP.fin (xi * (rawWeight pw rexp a b qpdf xi /
            (xs.map (rawWeight pw rexp a b qpdf)).sum))) :=
      List.map_congr_left fun xi _ => by simp [fpMul]
    rw [hmul, fpSum_map_fin_comp]

/-- C6 counterexample: on the empty sample list — for which "all raw
weights are positive and finite" holds vacuously — the weight list
returned by `impSamplingDemo` is empty and its sum is `0`, not `1`. -/
theorem imp_weights_counterexample :
    (impSamplingDemo pwOne rexpOne 1 1 qpOne []).2.2 = ([] : List FP) ∧
    fpSum (impSamplingDemo pwOne rexpOne 1 1 qpOne []).2.2 = .fin 0 ∧
    FP.fin 0 ≠ FP.fin 1 := by
  refine ⟨rfl, rfl, ?_⟩
  simp

/-- C6 witness: a single sample `0` with `a = b = 1` and the constant-`1`
power, exponential and proposal density has raw weight `1`; the
normalized weights sum to `1`. -/
theorem imp_weights_normalized_witness :
    ([0] : List ℚ) ≠ [] ∧ qpOne 0 ≠ 0 ∧
    0 < rawWeight pwOne rexpOne 1 1 qpOne 0 ∧
    (([0] : List ℚ).map (fun xi => rawWeight pwOne rexpOne 1 1 qpOne xi /
        (([0] : List ℚ).map (rawWeight pwOne rexpOne 1 1 qpOne)).sum)).sum = 1 :=
  ⟨by simp, by norm_num [qpOne],
   by norm_num [rawWeight, GammaUnnorm, GammaUnnormCore, pwOne, rexpOne,
     qpOne, fpMul, nan_to_num],
   (imp_weights_normalized pwOne rexpOne 1 1 qpOne [0] (by simp)
     (fun xi hxi => by
        rw [List.mem_singleton] at hxi
        subst hxi
        exact ⟨by norm_num [qpOne],
          by norm_num [rawWeight, GammaUnnorm, GammaUnnormCore, pwOne,
            rexpOne, qpOne, fpMul, nan_to_num]⟩)).2.1⟩
